import Mathlib

/-!
Verification of the SSH deployment manager (package impl, manager.go) of this
repository: the routing assignment algorithm (routingAlgo, nextPowerOfTwo), the
colocation-group registry operations (registerReplica, mayGenerateNewRoutingInfo,
updateRoutingInfo, getRoutingInfo, startColocationGroup, exportListener) and the
data they manipulate (protos.Assignment, protos.RoutingInfo, ColocationGroupState).

Machine integers are modelled as Nat with explicit reductions modulo 2^64 where
the Go code can overflow.  The float64 arithmetic used by routingAlgo's midpoint
computation, uint64(math.Floor(0.5 * float64(w))), is modelled exactly: float64
conversion is round-to-nearest-even at 53 significand bits, and halving a binary
float is exact.  Go string comparison (sort.Strings) is byte-wise lexicographic;
it is modelled by a structural lexicographic comparison on the character lists,
which agrees with byte-wise UTF-8 order.
-/

namespace Manager

/-- math.MaxUint64, the upper end of the key space used by routingAlgo. -/
def maxSliceKey : Nat := 2 ^ 64 - 1

/-- math.MinUint64 analogue: the lower end of the key space (the constant
minSliceKey = 0 in routingAlgo). -/
def minSliceKey : Nat := 0

/-- Number of binary digits of n, computed with explicit structural fuel so that
the kernel can evaluate it.  Valid for n < 2 ^ fuel; callers use fuel = 64 for
uint64 values. -/
def bitsAux : Nat → Nat → Nat
  | 0, _ => 0
  | fuel + 1, n => if n = 0 then 0 else bitsAux fuel (n / 2) + 1

/-- Number of binary digits of a uint64 value. -/
def bits (n : Nat) : Nat := bitsAux 64 n

/-- Conversion of a uint64 value w to float64, as a natural number: w itself when
it fits in the 53-bit significand, otherwise w rounded to nearest even at 53
significand bits.  This is the exact value of the Go expression float64(w) for
w < 2^64. -/
def float64round (w : Nat) : Nat :=
  if w < 2 ^ 53 then w
  else
    let e := bits w - 53
    let q := w / 2 ^ e
    let r := w % 2 ^ e
    if 2 * r > 2 ^ e ∨ (2 * r = 2 ^ e ∧ q % 2 = 1) then (q + 1) * 2 ^ e else q * 2 ^ e

/-- The Go expression uint64(math.Floor(0.5 * float64(w))) used for the midpoint
in routingAlgo: multiplying a float64 by 0.5 is exact (exponent decrement), so
the result is the floor of half the rounded value. -/
def floatHalfFloor (w : Nat) : Nat := float64round w / 2

/-- The Go expression math.Ceil(math.Log2(g)) where g is the float64 value of
the natural number f.  Go's Log2 is Frexp followed by a special case: when the
fraction is exactly 0.5 (f an exact power of two) it returns the exponent
exactly, so the ceiling is bits f - 1; otherwise the true log2 lies strictly
between bits f - 1 and bits f and the ceiling of the computed value is bits f.
For non-powers the computed Log2 carries libm rounding error and can fall to
the integer below once f exceeds about 2^46 (the true log2 gets closer to the
integer below than the error bound), so theorems that rely on this value in
the non-power case restrict the candidate count to at most 2^32, where the
model provably agrees with the source. -/
def mathCeilLog2 (f : Nat) : Nat :=
  if 2 ^ (bits f - 1) = f then bits f - 1 else bits f

/-- nextPowerOfTwo from manager.go: returns x when x&(x-1) == 0 (x already a
power of two, and 0 for x = 0), otherwise
int(math.Pow(2, math.Ceil(math.Log2(float64(x))))), modelled through the exact
float64 conversion float64round and mathCeilLog2 above (Pow at integer
arguments and the int conversion are exact in the feasible range).  Note the
result can be smaller than x: at x = 2^53 + 1 the conversion rounds
(ties-to-even) to 2^53, an exact power, and the branch returns 2^53 < x. -/
def nextPowerOfTwo (x : Nat) : Nat :=
  if x &&& (x - 1) = 0 then x else 2 ^ mathCeilLog2 (float64round x)

/-- Lexicographic comparison of character lists, the model of Go's byte-wise
string ordering used by sort.Strings and sort.Slice. -/
def charsLe : List Char → List Char → Bool
  | [], _ => true
  | _ :: _, [] => false
  | a :: s, b :: t => if a < b then true else if b < a then false else charsLe s t

/-- Go string comparison s <= t. -/
def strLe (s t : String) : Bool := charsLe s.data t.data

/-- sort.Strings: sorts a slice of strings in increasing byte-wise order.
Modelled by insertion sort; any correct sort produces the same list because the
order is total and antisymmetric. -/
def sortStrings (l : List String) : List String :=
  List.insertionSort (fun s t => strLe s t = true) l

/-- The two halves of one interval, split at the float midpoint computed by the
loop body of routingAlgo.  Intervals are pairs (start, end); the midpoint
addition is uint64 addition, hence the reduction modulo 2^64. -/
def childSplits (p : Nat × Nat) : List (Nat × Nat) :=
  let mid := (p.1 + floatHalfFloor (p.2 - p.1)) % 2 ^ 64
  [(p.1, mid), (mid, p.2)]

/-- One iteration of the slice-splitting loop body in routingAlgo: pop the head
interval, split it at the float midpoint, append the two halves. -/
def splitStep : List (Nat × Nat) → List (Nat × Nat)
  | [] => []
  | p :: rest => rest ++ childSplits p

/-- One breadth-first level of the splitting loop: every interval replaced by
its two halves.  The FIFO loop of routingAlgo is proved below to compute whole
levels of this expansion. -/
def expandSplits (l : List (Nat × Nat)) : List (Nat × Nat) :=
  l.flatMap childSplits

/-- A list of intervals tiles the key range [lo, hi]: the first starts at lo,
each interval is nonempty and ends where the next begins, and the last ends at
hi.  This is the no-gap, no-overlap coverage property of the computed splits. -/
def IsTiling : Nat → Nat → List (Nat × Nat) → Prop
  | lo, hi, [] => lo = hi
  | lo, hi, p :: rest => lo = p.1 ∧ p.1 < p.2 ∧ IsTiling p.2 hi rest

/-- Every interval of the list has width at least w. -/
def MinWidth (w : Nat) (l : List (Nat × Nat)) : Prop :=
  ∀ p ∈ l, w ≤ p.2 - p.1

/-- The do-while splitting loop of routingAlgo: run the body, then repeat while
the number of intervals differs from numSlices.  The loop adds one interval per
iteration, so fuel = numSlices always suffices; the fuel only makes the
recursion structural. -/
def splitLoop : Nat → Nat → List (Nat × Nat) → List (Nat × Nat)
  | 0, _, s => s
  | fuel + 1, numSlices, s =>
      let s' := splitStep s
      if s'.length = numSlices then s' else splitLoop fuel numSlices s'

/-- protos.Assignment_Slice: a slice of the key space, identified by its start
key, owned by a list of replicas (exactly one in this design). -/
structure AssignmentSlice where
  start : Nat := 0
  replicas : List String := []
deriving DecidableEq

/-- protos.Assignment: a versioned partition of the uint64 key space for one
routed component. -/
structure Assignment where
  app : String := ""
  deploymentId : String := ""
  component : String := ""
  version : Nat := 0
  slices : List AssignmentSlice := []
deriving DecidableEq

/-- The round-robin assignment of computed splits to candidates at the end of
routingAlgo: slice i gets candidates[rId] with rId cycling from 0.  Go indexes
candidates[rId] with rId < len(candidates); getD only supplies the impossible
out-of-range default. -/
def assignSlices (candidates : List String) : Nat → List (Nat × Nat) → List AssignmentSlice
  | _, [] => []
  | rId, s :: rest =>
      { start := s.1, replicas := [candidates.getD rId ""] }
        :: assignSlices candidates ((rId + 1) % candidates.length) rest

/-- sort.Slice comparator of routingAlgo: order splits by start key. -/
def sortSplits (l : List (Nat × Nat)) : List (Nat × Nat) :=
  List.insertionSort (fun p q : Nat × Nat => p.1 ≤ q.1) l

/-- routingAlgo from manager.go: clone the current assignment, increment its
version (uint64 arithmetic), sort the candidates, and split the key space:
no candidates gives no slices, one candidate owns everything, otherwise
nextPowerOfTwo(len) slices are produced by repeated midpoint bisection, sorted
by start key, and handed out round robin.  The Go function's error result is
always nil and is omitted. -/
def routingAlgo (currAssignment : Assignment) (candidates : List String) : Assignment :=
  let newAssignment := { currAssignment with version := (currAssignment.version + 1) % 2 ^ 64 }
  let sorted := sortStrings candidates
  if sorted.length = 0 then { newAssignment with slices := [] }
  else if sorted.length = 1 then
    { newAssignment with slices := [{ start := minSliceKey, replicas := sorted }] }
  else
    let numSlices := nextPowerOfTwo sorted.length
    let splits := splitLoop numSlices numSlices [(minSliceKey, maxSliceKey)]
    { newAssignment with slices := assignSlices sorted 0 (sortSplits splits) }

/-- protos.RoutingInfo: the per-group routing snapshot stored in the versioned
routing store — the sorted replica list and all component assignments, plus the
store version string filled in by getRoutingInfo.  Structural equality of this
record is the model of gproto.Equal on *protos.RoutingInfo. -/
structure RoutingInfo where
  version : String := ""
  replicas : List String := []
  assignments : List Assignment := []
deriving DecidableEq

/-- ColocationGroupState: the per-group registry record.  Go maps
(Components, Assignments) are modelled as association lists in insertion
order. -/
structure ColocationGroupState where
  name : String := ""
  components : List (String × Bool) := []
  replicas : List String := []
  replicaPids : List Int := []
  assignments : List (String × Assignment) := []
deriving DecidableEq

/-- mayGenerateNewRoutingInfo from manager.go: recompute every component's
assignment with routingAlgo over the group's replicas (routingAlgo never fails
and never returns nil, so every assignment is replaced), sort the replica list
in place, and build the RoutingInfo snapshot from the sorted replicas and the
recomputed assignments.  Returns the mutated group state together with the
snapshot that is then handed to updateRoutingInfo. -/
def mayGenerateNewRoutingInfo (g : ColocationGroupState) :
    ColocationGroupState × RoutingInfo :=
  let assignments := g.assignments.map fun ca => (ca.1, routingAlgo ca.2 g.replicas)
  let replicas := sortStrings g.replicas
  let info : RoutingInfo := { replicas := replicas, assignments := assignments.map (·.2) }
  ({ g with assignments := assignments, replicas := replicas }, info)

/-- updateRoutingInfo from manager.go, acting on the versioned routing store
entry for the group, modelled from the spec as a single optional stored value:
load the stored RoutingInfo (a never-written key reads as nil and is replaced by
an empty RoutingInfo), skip the store write when it equals the new info under
gproto.Equal, otherwise write.  Returns whether a write (and hence a long-poll
wake-up) happened, and the resulting stored value. -/
def updateRoutingInfo (stored : Option RoutingInfo) (info : RoutingInfo) :
    Bool × Option RoutingInfo :=
  let state := stored.getD {}
  if state = info then (false, stored)
  else (true, some info)

/-- registerReplica from manager.go, restricted to the group state it mutates:
append the replica address and pid unless the address is already present, then
regenerate the routing info.  The Go handler can only fail on state-store reads,
which the in-memory model cannot; duplicate registration is not an error
path. -/
def registerReplicaGroup (g : ColocationGroupState) (address : String) (pid : Int) :
    ColocationGroupState × RoutingInfo :=
  let g1 :=
    if g.replicas.contains address then g
    else { g with replicas := g.replicas ++ [address], replicaPids := g.replicaPids ++ [pid] }
  mayGenerateNewRoutingInfo g1

/-- Modelled from the spec: the versioned store entry for one routing key, as
read by versioned_map.Map.Read (whose implementation is not under src).  Per
section 4.1 of the spec, a read returns the current value and its version, with
a nil value and no error when the key has never been written; val = none models
that nil. -/
structure RoutingStore where
  val : Option RoutingInfo := none
  ver : String := ""
deriving DecidableEq

/-- loadRoutingState from manager.go: read the routing store and convert the nil
not-found value into an empty RoutingInfo, returning it with the version that
was read. -/
def loadRoutingState (s : RoutingStore) : RoutingInfo × String :=
  (s.val.getD {}, s.ver)

/-- getRoutingInfo from manager.go (the nil check on the result of
loadRoutingState is dead code, since loadRoutingState already converted nil):
return the loaded RoutingInfo with its Version field set to the version read
from the store. -/
def getRoutingInfo (s : RoutingStore) : RoutingInfo :=
  let loaded := loadRoutingState s
  { loaded.1 with version := loaded.2 }

/-- The location loop of startColocationGroup: attempt to launch a babysitter at
each location in order (startBabysitter itself runs ssh; it is abstracted by the
launch oracle), returning on the first failure.  Produces the list of locations
where a launch was attempted and the location of the failure, if any. -/
def startLoop (launch : String → Bool) : List String → List String × Option String
  | [] => ([], none)
  | loc :: rest =>
      if launch loc then
        let r := startLoop launch rest
        (loc :: r.1, r.2)
      else ([loc], some loc)

/-- startColocationGroup from manager.go: a no-op for a group already in the
started set; otherwise run the location loop and add the group to the started
set only when every location succeeded.  Returns the locations attempted, the
new started set, and the error, if any. -/
def startColocationGroup (started : List String) (launch : String → Bool)
    (group : String) (locations : List String) :
    List String × List String × Option String :=
  if started.contains group then ([], started, none)
  else
    let r := startLoop launch locations
    match r.2 with
    | some loc => (r.1, started, some loc)
    | none => (r.1, group :: started, none)

/-- The outcome of the net.Listen call in exportListener: a bound address, the
distinguished syscall.EADDRINUSE failure, or any other failure. -/
inductive ListenOutcome where
  | ok (addr : String)
  | addrInUse (msg : String)
  | otherFailure (msg : String)
deriving DecidableEq

/-- proxyInfo from manager.go: the proxy for one listener name, with its
dialable address and its backend list (the proxy.Proxy backends). -/
structure ProxyState where
  addr : String := ""
  backends : List String := []
deriving DecidableEq

/-- protos.ExportListenerReply: proto zero values are empty strings. -/
structure ExportListenerReply where
  proxyAddress : String := ""
  error : String := ""
deriving DecidableEq

/-- exportListener from manager.go, restricted to the proxy table (the appState
listener append is independent bookkeeping): reuse an existing proxy by adding
the backend; otherwise bind a listener — EADDRINUSE is returned inside the
reply's Error field with a nil Go error and registers nothing, any other bind
failure is returned as a Go error (Except.error) and registers nothing, and a
successful bind creates and registers the proxy.  The result pairs the reply
with the updated proxy table. -/
def exportListener (proxies : List (String × ProxyState))
    (name backendAddr : String) (listen : ListenOutcome) :
    Except String (ExportListenerReply × List (String × ProxyState)) :=
  match proxies.lookup name with
  | some p =>
      .ok ({ proxyAddress := p.addr },
        proxies.map fun kv =>
          if kv.1 = name then (kv.1, { kv.2 with backends := kv.2.backends ++ [backendAddr] })
          else kv)
  | none =>
      match listen with
      | .addrInUse msg => .ok ({ error := msg }, proxies)
      | .otherFailure msg => .error ("proxy listen: " ++ msg)
      | .ok addr =>
          .ok ({ proxyAddress := addr },
            proxies ++ [(name, { addr := addr, backends := [backendAddr] })])

end Manager

namespace Manager

theorem charsLe_total : ∀ s t : List Char, charsLe s t = true ∨ charsLe t s = true
  | [], _ => Or.inl rfl
  | _ :: _, [] => Or.inr rfl
  | a :: s, b :: t => by
      rcases lt_trichotomy a b with h | h | h
      · left; simp [charsLe, h]
      · subst h
        rcases charsLe_total s t with ih | ih
        · left; simp [charsLe, lt_irrefl, ih]
        · right; simp [charsLe, lt_irrefl, ih]
      · right; simp [charsLe, h]

theorem charsLe_trans : ∀ s t u : List Char,
    charsLe s t = true → charsLe t u = true → charsLe s u = true
  | [], _, _, _, _ => rfl
  | _ :: _, [], _, h, _ => by simp [charsLe] at h
  | _ :: _, _ :: _, [], _, h => by simp [charsLe] at h
  | a :: s, b :: t, c :: u, h1, h2 => by
      rcases lt_trichotomy a b with hab | hab | hab
      · rcases lt_trichotomy b c with hbc | hbc | hbc
        · simp [charsLe, lt_trans hab hbc]
        · subst hbc; simp [charsLe, hab]
        · simp [charsLe, hbc, not_lt_of_gt hbc] at h2
      · subst hab
        rcases lt_trichotomy a c with hac | hac | hac
        · simp [charsLe, hac]
        · subst hac
          simp only [charsLe, lt_irrefl, if_false] at h1 h2 ⊢
          exact charsLe_trans s t u h1 h2
        · simp [charsLe, hac, not_lt_of_gt hac] at h2
      · simp [charsLe, hab, not_lt_of_gt hab] at h1

theorem charsLe_antisymm : ∀ s t : List Char,
    charsLe s t = true → charsLe t s = true → s = t
  | [], [], _, _ => rfl
  | [], _ :: _, _, h => by simp [charsLe] at h
  | _ :: _, [], h, _ => by simp [charsLe] at h
  | a :: s, b :: t, h1, h2 => by
      rcases lt_trichotomy a b with hab | hab | hab
      · simp [charsLe, hab, not_lt_of_gt hab] at h2
      · subst hab
        simp only [charsLe, lt_irrefl, if_false] at h1 h2
        rw [charsLe_antisymm s t h1 h2]
      · simp [charsLe, hab, not_lt_of_gt hab] at h1

instance : IsTotal String (fun s t => strLe s t = true) :=
  ⟨fun s t => charsLe_total s.data t.data⟩

instance : IsTrans String (fun s t => strLe s t = true) :=
  ⟨fun s t u => charsLe_trans s.data t.data u.data⟩

instance : IsAntisymm String (fun s t => strLe s t = true) :=
  ⟨fun s t h1 h2 => by
    cases s; cases t
    exact congrArg String.mk (charsLe_antisymm _ _ h1 h2)⟩

theorem sortStrings_perm (l : List String) : List.Perm (sortStrings l) l :=
  List.perm_insertionSort _ l

theorem sortStrings_length (l : List String) : (sortStrings l).length = l.length :=
  (sortStrings_perm l).length_eq

theorem mem_sortStrings {a : String} {l : List String} : a ∈ sortStrings l ↔ a ∈ l :=
  (sortStrings_perm l).mem_iff

theorem sortStrings_sorted (l : List String) :
    (sortStrings l).Sorted (fun s t => strLe s t = true) :=
  List.sorted_insertionSort _ l

theorem sortStrings_eq_of_perm {l₁ l₂ : List String} (h : List.Perm l₁ l₂) :
    sortStrings l₁ = sortStrings l₂ :=
  List.eq_of_perm_of_sorted
    ((sortStrings_perm l₁).trans (h.trans (sortStrings_perm l₂).symm))
    (sortStrings_sorted l₁) (sortStrings_sorted l₂)

end Manager

namespace Manager

/-- C6: for the input candidates ["b","a"], routingAlgo (Recompute) sorts them
to ["a","b"] and returns exactly two slices: slice 0 with start key 0 owned by
replica "a" and slice 1 with start key 2^63 owned by replica "b". -/
theorem routingAlgo_pair_scenario :
    sortStrings ["b", "a"] = ["a", "b"] ∧
    (routingAlgo {} ["b", "a"]).slices =
      [{ start := 0, replicas := ["a"] }, { start := 2 ^ 63, replicas := ["b"] }] := by
  decide

/-- C10: getRoutingInfo never returns a nil or not-found result: its Version
field always carries the version read from the store, and when the routing key
has never been written (the store value is nil) the result is the empty
RoutingInfo with that version, not an error and not nil. -/
theorem getRoutingInfo_never_nil (s : RoutingStore) :
    (getRoutingInfo s).version = s.ver ∧
      (s.val = none → getRoutingInfo s = { version := s.ver }) := by
  refine ⟨rfl, fun h => ?_⟩
  simp [getRoutingInfo, loadRoutingState, h]

/-- Witness for C10 at a concrete never-written store entry. -/
theorem getRoutingInfo_never_nil_witness :
    getRoutingInfo { val := none, ver := "v1" } = { version := "v1" } :=
  (getRoutingInfo_never_nil { val := none, ver := "v1" }).2 rfl

/-- C7: when exportListener must bind a new listener (no proxy is registered
under the name), an address-in-use bind failure is returned inside the reply's
Error field with no Go error and leaves the proxy table unchanged, while any
other bind failure is returned as a Go error, also leaving the proxy table
unchanged — in neither case is a proxy created or registered. -/
theorem exportListener_bind_failure (proxies : List (String × ProxyState))
    (name backendAddr msg : String) (h : proxies.lookup name = none) :
    exportListener proxies name backendAddr (.addrInUse msg) =
      .ok ({ proxyAddress := "", error := msg }, proxies) ∧
    exportListener proxies name backendAddr (.otherFailure msg) =
      .error ("proxy listen: " ++ msg) := by
  constructor <;> simp [exportListener, h]

/-- Witness for C7 on the empty proxy table. -/
theorem exportListener_bind_failure_witness :
    exportListener [] "L" "w1" (.addrInUse "busy") = .ok ({ error := "busy" }, []) ∧
    exportListener [] "L" "w1" (.otherFailure "busy") = .error ("proxy listen: " ++ "busy") :=
  exportListener_bind_failure [] "L" "w1" "busy" rfl

/-- C8: registerReplica is idempotent in the replica address: a second
registration of the same address (even with a different pid) leaves the length
of the group's replica list unchanged, and takes the no-append path rather than
an error path. -/
theorem registerReplica_idempotent (g : ColocationGroupState) (a : String) (p q : Int) :
    ((registerReplicaGroup (registerReplicaGroup g a p).1 a q).1).replicas.length =
      ((registerReplicaGroup g a p).1).replicas.length := by
  set g1 := (registerReplicaGroup g a p).1 with hg1
  have hmem : a ∈ g1.replicas := by
    rw [hg1]
    simp only [registerReplicaGroup, mayGenerateNewRoutingInfo]
    rw [mem_sortStrings]
    by_cases h : a ∈ g.replicas
    · simp [h]
    · simp [h]
  have hstep : registerReplicaGroup g1 a q = mayGenerateNewRoutingInfo g1 := by
    simp [registerReplicaGroup, hmem]
  rw [hstep]
  simp only [mayGenerateNewRoutingInfo]
  exact sortStrings_length _

end Manager

namespace Manager

/-- C1 counterexample: a group with one assignment and an unchanged replica set.
After a first recompute-and-persist, a second recompute leaves the replicas and
every assignment's slices unchanged, yet updateRoutingInfo still writes to the
store (and so wakes long-poll readers), because gproto.Equal compares the
assignment Version fields, which routingAlgo bumps on every invocation. -/
theorem updateRoutingInfo_writes_on_version_bump :
    ((mayGenerateNewRoutingInfo
        (mayGenerateNewRoutingInfo
          { name := "g", replicas := ["a"], replicaPids := [1],
            assignments := [("c", {})] }).1).2.replicas =
      (mayGenerateNewRoutingInfo
        { name := "g", replicas := ["a"], replicaPids := [1],
          assignments := [("c", {})] }).2.replicas ∧
     (mayGenerateNewRoutingInfo
        (mayGenerateNewRoutingInfo
          { name := "g", replicas := ["a"], replicaPids := [1],
            assignments := [("c", {})] }).1).2.assignments.map Assignment.slices =
      (mayGenerateNewRoutingInfo
        { name := "g", replicas := ["a"], replicaPids := [1],
          assignments := [("c", {})] }).2.assignments.map Assignment.slices) ∧
    (updateRoutingInfo
      (some (mayGenerateNewRoutingInfo
        { name := "g", replicas := ["a"], replicaPids := [1],
          assignments := [("c", {})] }).2)
      (mayGenerateNewRoutingInfo
        (mayGenerateNewRoutingInfo
          { name := "g", replicas := ["a"], replicaPids := [1],
            assignments := [("c", {})] }).1).2).1 = true := by
  decide

/-- C1 amended: updateRoutingInfo skips the store write exactly when the new
RoutingInfo equals the loaded one under full structural (gproto) equality,
which includes the assignment Version fields; the equality does not ignore
version bumps, so a recompute of a group with at least one assignment always
writes. -/
theorem updateRoutingInfo_skips_iff_equal (stored : Option RoutingInfo) (info : RoutingInfo) :
    (updateRoutingInfo stored info).1 = false ↔ stored.getD {} = info := by
  by_cases h : stored.getD {} = info <;> simp [updateRoutingInfo, h]

/-- C3 counterexample: two locations where the launch fails at the first one.
startColocationGroup attempts only the failing location — the remaining
location is not attempted, contradicting the claim that placement continues at
the other locations.  (The group is indeed left unmarked.) -/
theorem startColocationGroup_aborts_on_failure :
    (startColocationGroup [] (fun loc => loc != "l1") "g" ["l1", "l2"]).1 = ["l1"] ∧
    "l2" ∉ (startColocationGroup [] (fun loc => loc != "l1") "g" ["l1", "l2"]).1 ∧
    (startColocationGroup [] (fun loc => loc != "l1") "g" ["l1", "l2"]).2.1 = [] := by
  decide

/-- Behaviour of the location loop of startColocationGroup: on success every
location is attempted in order; on failure the attempted list is the prefix of
locations up to and including the first failing one, and nothing after it is
attempted. -/
theorem startLoop_spec (launch : String → Bool) :
    ∀ locations : List String,
      ((startLoop launch locations).2 = none → (startLoop launch locations).1 = locations) ∧
      (∀ f, (startLoop launch locations).2 = some f → launch f = false ∧
        ∃ pre post, (startLoop launch locations).1 = pre ++ [f] ∧
          locations = pre ++ [f] ++ post ∧ ∀ p ∈ pre, launch p = true)
  | [] => by simp [startLoop]
  | loc :: rest => by
      by_cases h : launch loc
      · have ih := startLoop_spec launch rest
        constructor
        · intro hnone
          simp only [startLoop, h, if_true] at hnone ⊢
          rw [ih.1 hnone]
        · intro f hf
          simp only [startLoop, h, if_true] at hf ⊢
          obtain ⟨hl, pre, post, h1, h2, h3⟩ := ih.2 f hf
          refine ⟨hl, loc :: pre, post, by simp [h1], by simp [h2], ?_⟩
          intro p hp
          rcases List.mem_cons.mp hp with rfl | hp
          · exact h
          · exact h3 p hp
      · have hr : startLoop launch (loc :: rest) = ([loc], some loc) := by
          simp [startLoop, h]
        rw [hr]
        refine ⟨fun hnone => (nomatch hnone), fun f hf => ?_⟩
        simp only [Option.some.injEq] at hf
        subst hf
        refine ⟨by simpa using h, [], rest, ?_, ?_, ?_⟩
        · rfl
        · simp
        · simp

/-- C3 amended: for a group not yet started, startColocationGroup launches the
locations in order but returns on the first failure: when a launch fails, the
attempted locations are exactly the prefix up to and including the first
failing one (later locations are not attempted) and the group is not marked
started; the group is marked started, with every location attempted, only when
all launches succeed. -/
theorem startColocationGroup_stops_at_first_failure (started : List String)
    (launch : String → Bool) (group : String) (locations : List String)
    (h : group ∉ started) :
    ((startColocationGroup started launch group locations).2.2 = none →
      (startColocationGroup started launch group locations).1 = locations ∧
      (startColocationGroup started launch group locations).2.1 = group :: started) ∧
    (∀ f, (startColocationGroup started launch group locations).2.2 = some f →
      launch f = false ∧
      (startColocationGroup started launch group locations).2.1 = started ∧
      ∃ pre post, (startColocationGroup started launch group locations).1 = pre ++ [f] ∧
        locations = pre ++ [f] ++ post ∧ ∀ p ∈ pre, launch p = true) := by
  have hc : started.contains group = false := by
    simpa using h
  have hs := startLoop_spec launch locations
  cases he : (startLoop launch locations).2 with
  | none =>
      have hr : startColocationGroup started launch group locations
          = ((startLoop launch locations).1, group :: started, none) := by
        simp [startColocationGroup, h, he]
      rw [hr]
      exact ⟨fun _ => ⟨hs.1 he, rfl⟩, fun f hf => nomatch hf⟩
  | some f =>
      have hr : startColocationGroup started launch group locations
          = ((startLoop launch locations).1, started, some f) := by
        simp [startColocationGroup, h, he]
      rw [hr]
      refine ⟨fun hn => (nomatch hn), fun f' hf' => ?_⟩
      simp only [Option.some.injEq] at hf'
      subst hf'
      obtain ⟨hl, pre, post, h1, h2, h3⟩ := hs.2 f he
      exact ⟨hl, rfl, pre, post, h1, h2, h3⟩

/-- Witness for C3 amended: a failing second location. -/
theorem startColocationGroup_stops_at_first_failure_witness :
    (startColocationGroup [] (fun l => l != "l2") "g" ["l1", "l2"]).2.1 = [] := by
  have h := startColocationGroup_stops_at_first_failure [] (fun l => l != "l2") "g"
    ["l1", "l2"] (by simp)
  exact (h.2 "l2" (by decide)).2.1

end Manager

namespace Manager

/-- C9 counterexample: register address "b" with pid 2 and then address "a"
with pid 1.  mayGenerateNewRoutingInfo sorts Replicas without permuting
ReplicaPids, so the final state pairs address "a" (index 0) with pid 2 — the
pid that was registered for "b" — and the lists are not index-aligned. -/
theorem registerReplica_pids_misaligned :
    ((registerReplicaGroup (registerReplicaGroup { name := "g" } "b" 2).1 "a" 1).1).replicas =
      ["a", "b"] ∧
    ((registerReplicaGroup (registerReplicaGroup { name := "g" } "b" 2).1 "a" 1).1).replicaPids =
      [2, 1] := by
  decide

/-- C9 amended: registerReplica preserves the length invariant
len(Replicas) = len(ReplicaPids), appending the address and the pid together or
appending neither, and re-registering an existing address leaves ReplicaPids
entirely unchanged; but because mayGenerateNewRoutingInfo sorts Replicas
without permuting ReplicaPids, the two lists do not stay index-aligned once
addresses register out of sorted order. -/
theorem registerReplica_length_invariant (g : ColocationGroupState) (a : String) (p : Int)
    (h : g.replicas.length = g.replicaPids.length) :
    ((registerReplicaGroup g a p).1.replicas.length =
      (registerReplicaGroup g a p).1.replicaPids.length) ∧
    (a ∈ g.replicas → (registerReplicaGroup g a p).1.replicaPids = g.replicaPids) := by
  constructor
  · by_cases hm : a ∈ g.replicas
    · simp [registerReplicaGroup, mayGenerateNewRoutingInfo, hm, sortStrings_length, h]
    · simp [registerReplicaGroup, mayGenerateNewRoutingInfo, hm, sortStrings_length, h]
  · intro hm
    simp [registerReplicaGroup, mayGenerateNewRoutingInfo, hm]

/-- Witness for C9 amended at a concrete group state. -/
theorem registerReplica_length_invariant_witness :
    ((registerReplicaGroup { name := "g", replicas := ["b"], replicaPids := [2] } "a" 1).1.replicas.length =
      (registerReplicaGroup { name := "g", replicas := ["b"], replicaPids := [2] } "a" 1).1.replicaPids.length) :=
  (registerReplica_length_invariant { name := "g", replicas := ["b"], replicaPids := [2] } "a" 1 rfl).1

end Manager

namespace Manager

theorem bitsAux_spec : ∀ fuel n, 0 < n → n < 2 ^ fuel →
    2 ^ (bitsAux fuel n - 1) ≤ n ∧ n < 2 ^ bitsAux fuel n
  | 0, n, hn, hlt => by rw [pow_zero] at hlt; omega
  | fuel + 1, n, hn, hlt => by
      have hne : n ≠ 0 := by omega
      by_cases h1 : n = 1
      · subst h1
        have h0 : bitsAux fuel 0 = 0 := by cases fuel <;> simp [bitsAux]
        simp [bitsAux, h0]
      · have h2 : 2 ≤ n := by omega
        have hhalf : 0 < n / 2 := by omega
        have hlt2 : n / 2 < 2 ^ fuel := by
          rw [pow_succ] at hlt; omega
        obtain ⟨ih1, ih2⟩ := bitsAux_spec fuel (n / 2) hhalf hlt2
        have hb : 1 ≤ bitsAux fuel (n / 2) := by
          by_contra hb
          have hz : bitsAux fuel (n / 2) = 0 := by omega
          rw [hz, pow_zero] at ih2
          omega
        have hstep : bitsAux (fuel + 1) n = bitsAux fuel (n / 2) + 1 := by
          simp [bitsAux, hne]
        rw [hstep]
        have e1 : 2 ^ bitsAux fuel (n / 2) = 2 * 2 ^ (bitsAux fuel (n / 2) - 1) := by
          conv_lhs => rw [show bitsAux fuel (n / 2) = (bitsAux fuel (n / 2) - 1) + 1 by omega]
          rw [pow_succ]; ring
        have e2 : 2 ^ (bitsAux fuel (n / 2) + 1) = 2 * 2 ^ bitsAux fuel (n / 2) := by
          rw [pow_succ]; ring
        constructor
        · simpa using by omega
        · omega

theorem bits_spec {n : Nat} (hn : 0 < n) (hlt : n < 2 ^ 64) :
    2 ^ (bits n - 1) ≤ n ∧ n < 2 ^ bits n :=
  bitsAux_spec 64 n hn hlt

/-- Basic facts about the bit length of a value in the rounding regime
2^53 <= w < 2^64. -/
theorem bits_range {w : Nat} (h53 : ¬ w < 2 ^ 53) (hw : w < 2 ^ 64) :
    54 ≤ bits w ∧ bits w ≤ 64 ∧ 2 ^ (bits w - 1) ≤ w ∧ w < 2 ^ bits w := by
  have h0 : 0 < w := by
    have : (0:Nat) < 2 ^ 53 := by positivity
    omega
  obtain ⟨hb1, hb2⟩ := bits_spec h0 hw
  have hlo : 54 ≤ bits w := by
    have h1 : (2:Nat) ^ 53 < 2 ^ bits w := by omega
    have := (Nat.pow_lt_pow_iff_right (a := 2) (by norm_num)).mp h1
    omega
  have hhi : bits w ≤ 64 := by
    have h1 : (2:Nat) ^ (bits w - 1) < 2 ^ 64 := by omega
    have := (Nat.pow_lt_pow_iff_right (a := 2) (by norm_num)).mp h1
    omega
  exact ⟨hlo, hhi, hb1, hb2⟩

theorem float64round_def (w : Nat) (h53 : ¬ w < 2 ^ 53) :
    float64round w =
      if 2 * (w % 2 ^ (bits w - 53)) > 2 ^ (bits w - 53) ∨
         (2 * (w % 2 ^ (bits w - 53)) = 2 ^ (bits w - 53) ∧ (w / 2 ^ (bits w - 53)) % 2 = 1)
      then (w / 2 ^ (bits w - 53) + 1) * 2 ^ (bits w - 53)
      else (w / 2 ^ (bits w - 53)) * 2 ^ (bits w - 53) := by
  unfold float64round
  rw [if_neg h53]

/-- Rounding to nearest cannot fall below a power of two lower bound. -/
theorem float64round_ge {k w : Nat} (hk : 2 ^ k ≤ w) (hw : w < 2 ^ 64) :
    2 ^ k ≤ float64round w := by
  by_cases h53 : w < 2 ^ 53
  · unfold float64round
    rw [if_pos h53]
    exact hk
  · obtain ⟨hB1, hB2, hb1, hb2⟩ := bits_range h53 hw
    have hge : w / 2 ^ (bits w - 53) * 2 ^ (bits w - 53) ≤ float64round w := by
      rw [float64round_def w h53]
      split
      · exact Nat.mul_le_mul_right _ (by omega)
      · exact le_rfl
    rcases le_or_lt (bits w - 53) k with hek | hke
    · have h1 : 2 ^ (k - (bits w - 53)) ≤ w / 2 ^ (bits w - 53) := by
        have h2 : 2 ^ k / 2 ^ (bits w - 53) ≤ w / 2 ^ (bits w - 53) :=
          Nat.div_le_div_right hk
        rwa [Nat.pow_div hek (by norm_num)] at h2
      calc 2 ^ k = 2 ^ (k - (bits w - 53)) * 2 ^ (bits w - 53) := by
            rw [← pow_add]; congr 1; omega
        _ ≤ w / 2 ^ (bits w - 53) * 2 ^ (bits w - 53) := Nat.mul_le_mul_right _ h1
        _ ≤ float64round w := hge
    · have h1 : bits w - 53 ≤ bits w - 1 := by omega
      have h2 : 2 ^ (bits w - 1 - (bits w - 53)) ≤ w / 2 ^ (bits w - 53) := by
        have h3 : 2 ^ (bits w - 1) / 2 ^ (bits w - 53) ≤ w / 2 ^ (bits w - 53) :=
          Nat.div_le_div_right hb1
        rwa [Nat.pow_div h1 (by norm_num)] at h3
      calc 2 ^ k ≤ 2 ^ (bits w - 1) := Nat.pow_le_pow_right (by norm_num) (by omega)
        _ = 2 ^ (bits w - 1 - (bits w - 53)) * 2 ^ (bits w - 53) := by
            rw [← pow_add]; congr 1; omega
        _ ≤ w / 2 ^ (bits w - 53) * 2 ^ (bits w - 53) := Nat.mul_le_mul_right _ h2
        _ ≤ float64round w := hge

/-- Rounding to nearest overshoots by at most half an ulp. -/
theorem float64round_le {w : Nat} (h53 : ¬ w < 2 ^ 53) :
    2 * float64round w ≤ 2 * w + 2 ^ (bits w - 53) := by
  rw [float64round_def w h53]
  have hdm : w / 2 ^ (bits w - 53) * 2 ^ (bits w - 53) + w % 2 ^ (bits w - 53) = w :=
    Nat.div_add_mod' w _
  split
  next h =>
    have h2r : 2 ^ (bits w - 53) ≤ 2 * (w % 2 ^ (bits w - 53)) := by
      rcases h with h | ⟨h, _⟩ <;> omega
    have hq : (w / 2 ^ (bits w - 53) + 1) * 2 ^ (bits w - 53) =
        w / 2 ^ (bits w - 53) * 2 ^ (bits w - 53) + 2 ^ (bits w - 53) := by ring
    rw [hq]
    generalize w / 2 ^ (bits w - 53) * 2 ^ (bits w - 53) = X at hdm ⊢
    omega
  next =>
    generalize w / 2 ^ (bits w - 53) * 2 ^ (bits w - 53) = X at hdm ⊢
    omega

end Manager

namespace Manager

/-- The float midpoint is at most the width itself. -/
theorem floatHalfFloor_le_self {w : Nat} (hw : w < 2 ^ 64) : floatHalfFloor w ≤ w := by
  by_cases h53 : w < 2 ^ 53
  · have hr : float64round w = w := by
      unfold float64round; rw [if_pos h53]
    rw [floatHalfFloor, hr]
    omega
  · obtain ⟨hB1, hB2, hb1, hb2⟩ := bits_range h53 hw
    have hle := float64round_le h53
    have hEw : 2 ^ (bits w - 53) ≤ w :=
      le_trans (Nat.pow_le_pow_right (by norm_num) (by omega)) hb1
    rw [floatHalfFloor]
    omega

/-- Key bound on the split midpoint: a width of at least 2^k splits into two
parts each of width at least 2^(k-1), despite the float64 rounding. -/
theorem floatHalfFloor_bounds {k w : Nat} (hk : 1 ≤ k) (hkw : 2 ^ k ≤ w) (hw : w < 2 ^ 64) :
    2 ^ (k - 1) ≤ floatHalfFloor w ∧ 2 ^ (k - 1) ≤ w - floatHalfFloor w := by
  have hk2 : 2 ^ k = 2 * 2 ^ (k - 1) := by
    conv_lhs => rw [show k = (k - 1) + 1 by omega]
    rw [pow_succ]; ring
  constructor
  · have h1 : 2 ^ k ≤ float64round w := float64round_ge hkw hw
    rw [floatHalfFloor]
    omega
  · by_cases h53 : w < 2 ^ 53
    · have hr : float64round w = w := by
        unfold float64round; rw [if_pos h53]
      rw [floatHalfFloor, hr]
      omega
    · obtain ⟨hB1, hB2, hb1, hb2⟩ := bits_range h53 hw
      by_cases hbig : 2 ^ k + 2 ^ (bits w - 53 - 1) ≤ w
      · have hle := float64round_le h53
        have hE : 2 ^ (bits w - 53) = 2 * 2 ^ (bits w - 53 - 1) := by
          conv_lhs => rw [show bits w - 53 = (bits w - 53 - 1) + 1 by omega]
          rw [pow_succ]; ring
        rw [floatHalfFloor]
        omega
      · have hE : 2 ^ (bits w - 53) = 2 * 2 ^ (bits w - 53 - 1) := by
          conv_lhs => rw [show bits w - 53 = (bits w - 53 - 1) + 1 by omega]
          rw [pow_succ]; ring
        have hek : bits w - 53 ≤ k := by
          by_contra hgt
          push_neg at hgt
          have h1 : 2 ^ (bits w - 53) ≤ 2 ^ (bits w - 1) :=
            Nat.pow_le_pow_right (by norm_num) (by omega)
          have h2 : 2 ^ k ≤ 2 ^ (bits w - 53 - 1) :=
            Nat.pow_le_pow_right (by norm_num) (by omega)
          omega
        have hpow : 2 ^ (k - (bits w - 53)) * 2 ^ (bits w - 53) = 2 ^ k := by
          rw [← pow_add]; congr 1; omega
        have hjE : w - 2 ^ k < 2 ^ (bits w - 53) := by omega
        have hdiv : w / 2 ^ (bits w - 53) = 2 ^ (k - (bits w - 53)) := by
          apply Nat.div_eq_of_lt_le
          · rw [hpow]; exact hkw
          · rw [add_mul, one_mul, hpow]; omega
        have hmod : w % 2 ^ (bits w - 53) = w - 2 ^ k := by
          have hdm := Nat.div_add_mod' w (2 ^ (bits w - 53))
          rw [hdiv] at hdm
          rw [hpow] at hdm
          omega
        have hcond : ¬ (2 * (w % 2 ^ (bits w - 53)) > 2 ^ (bits w - 53) ∨
            (2 * (w % 2 ^ (bits w - 53)) = 2 ^ (bits w - 53) ∧
              (w / 2 ^ (bits w - 53)) % 2 = 1)) := by
          rw [hmod]
          omega
        have hround : float64round w = 2 ^ k := by
          rw [float64round_def w h53, if_neg hcond, hdiv, hpow]
        rw [floatHalfFloor, hround]
        omega

end Manager

namespace Manager

theorem IsTiling.le {lo hi : Nat} : ∀ {l : List (Nat × Nat)}, IsTiling lo hi l → lo ≤ hi
  | [], h => le_of_eq h
  | _ :: _, h => le_trans (le_of_lt (h.1 ▸ h.2.1)) h.2.2.le

theorem IsTiling.bounds {lo hi : Nat} : ∀ {l : List (Nat × Nat)}, IsTiling lo hi l →
    ∀ p ∈ l, lo ≤ p.1 ∧ p.1 < p.2 ∧ p.2 ≤ hi
  | [], _, p, hp => absurd hp (List.not_mem_nil p)
  | q :: rest, h, p, hp => by
      rcases List.mem_cons.mp hp with rfl | hp
      · exact ⟨le_of_eq h.1, h.2.1, h.2.2.le⟩
      · obtain ⟨h1, h2, h3⟩ := h.2.2.bounds p hp
        exact ⟨le_trans (le_of_lt (h.1 ▸ h.2.1)) h1, h2, h3⟩

theorem IsTiling.glue {lo mid hi : Nat} :
    ∀ {l₁ l₂ : List (Nat × Nat)}, IsTiling lo mid l₁ → IsTiling mid hi l₂ →
      IsTiling lo hi (l₁ ++ l₂)
  | [], l₂, h1, h2 => by
      rw [show lo = mid from h1]
      simpa using h2
  | p :: rest, l₂, h1, h2 =>
      ⟨h1.1, h1.2.1, h1.2.2.glue h2⟩

theorem MinWidth.union {w : Nat} {l₁ l₂ : List (Nat × Nat)}
    (h1 : MinWidth w l₁) (h2 : MinWidth w l₂) : MinWidth w (l₁ ++ l₂) := by
  intro p hp
  rcases List.mem_append.mp hp with hp | hp
  · exact h1 p hp
  · exact h2 p hp

/-- Splitting one interval of width at least 2^(j+1) yields a tiling of the
interval by two halves of width at least 2^j. -/
theorem childSplits_tile {a b j : Nat} (hb : b < 2 ^ 64) (hw : 2 ^ (j + 1) ≤ b - a) :
    IsTiling a b (childSplits (a, b)) ∧ MinWidth (2 ^ j) (childSplits (a, b)) := by
  have hwlt : b - a < 2 ^ 64 := by omega
  obtain ⟨hh1, hh2⟩ := floatHalfFloor_bounds (k := j + 1) (by omega) hw hwlt
  have hle : floatHalfFloor (b - a) ≤ b - a := floatHalfFloor_le_self hwlt
  have hj : (0:Nat) < 2 ^ j := by positivity
  have hmid : (a + floatHalfFloor (b - a)) % 2 ^ 64 = a + floatHalfFloor (b - a) := by
    apply Nat.mod_eq_of_lt
    omega
  simp only [childSplits, hmid]
  simp only [Nat.add_sub_cancel] at hh1 hh2
  refine ⟨⟨rfl, by omega, rfl, by omega, rfl⟩, ?_⟩
  intro p hp
  rcases List.mem_cons.mp hp with rfl | hp
  · simpa using by omega
  · rcases List.mem_cons.mp hp with rfl | hp
    · simpa using by omega
    · exact absurd hp (List.not_mem_nil p)

/-- One breadth-first expansion preserves the tiling and halves the width
bound. -/
theorem expandSplits_tile {j : Nat} :
    ∀ {l : List (Nat × Nat)} {lo hi : Nat}, IsTiling lo hi l → hi < 2 ^ 64 →
      MinWidth (2 ^ (j + 1)) l →
      IsTiling lo hi (expandSplits l) ∧ MinWidth (2 ^ j) (expandSplits l)
  | [], lo, hi, ht, _, _ => ⟨ht, fun p hp => absurd hp (List.not_mem_nil p)⟩
  | (a, b) :: rest, lo, hi, ht, hhi, hmw => by
      obtain ⟨h1, h2, h3⟩ := ht
      have hb : b ≤ hi := h3.le
      obtain ⟨hct, hcm⟩ := childSplits_tile (a := a) (b := b) (by omega)
        (hmw (a, b) (List.mem_cons_self _ _))
      obtain ⟨hrt, hrm⟩ := expandSplits_tile h3 hhi (fun p hp => hmw p (List.mem_cons_of_mem _ hp))
      have hexp : expandSplits ((a, b) :: rest) = childSplits (a, b) ++ expandSplits rest := by
        simp [expandSplits]
      rw [hexp]
      subst h1
      exact ⟨hct.glue hrt, hcm.union hrm⟩

theorem expandSplits_length : ∀ l : List (Nat × Nat),
    (expandSplits l).length = 2 * l.length
  | [] => rfl
  | p :: rest => by
      have : expandSplits (p :: rest) = childSplits p ++ expandSplits rest := by
        simp [expandSplits]
      rw [this, List.length_append, expandSplits_length rest]
      simp [childSplits]
      omega

end Manager

namespace Manager

theorem splitStep_length {s : List (Nat × Nat)} (h : s ≠ []) :
    (splitStep s).length = s.length + 1 := by
  match s, h with
  | p :: rest, _ =>
      simp [splitStep, childSplits]

/-- Iterating the loop body once per queue element expands every element: the
FIFO queue s ++ t becomes t followed by the halves of all elements of s. -/
theorem splitStep_iterate_append : ∀ (s t : List (Nat × Nat)),
    splitStep^[s.length] (s ++ t) = t ++ expandSplits s
  | [], t => by simp [expandSplits]
  | p :: s, t => by
      have h1 : splitStep^[(p :: s).length] ((p :: s) ++ t) =
          splitStep^[s.length] (splitStep ((p :: s) ++ t)) := by
        rw [List.length_cons, Function.iterate_succ_apply]
      have h2 : splitStep ((p :: s) ++ t) = s ++ (t ++ childSplits p) := by
        simp [splitStep]
      rw [h1, h2, splitStep_iterate_append s (t ++ childSplits p)]
      have h3 : expandSplits (p :: s) = childSplits p ++ expandSplits s := by
        simp [expandSplits]
      rw [h3]
      simp

theorem expandSplits_iterate_length (p : Nat × Nat) :
    ∀ k, (expandSplits^[k] [p]).length = 2 ^ k
  | 0 => rfl
  | k + 1 => by
      rw [Function.iterate_succ_apply', expandSplits_length,
        expandSplits_iterate_length p k, pow_succ]
      ring

/-- Running the loop body 2^k - 1 times computes the k-th breadth-first
level. -/
theorem splitStep_iterate_levels (p : Nat × Nat) :
    ∀ k, splitStep^[2 ^ k - 1] [p] = expandSplits^[k] [p]
  | 0 => rfl
  | k + 1 => by
      have hp : (1:Nat) ≤ 2 ^ k := Nat.one_le_two_pow
      have hs : 2 ^ (k + 1) = 2 * 2 ^ k := by rw [pow_succ]; ring
      have he : 2 ^ (k + 1) - 1 = 2 ^ k + (2 ^ k - 1) := by omega
      rw [he, Function.iterate_add_apply, splitStep_iterate_levels p k]
      have h1 : splitStep^[2 ^ k] (expandSplits^[k] [p]) =
          splitStep^[(expandSplits^[k] [p]).length] (expandSplits^[k] [p] ++ []) := by
        rw [expandSplits_iterate_length, List.append_nil]
      rw [h1, splitStep_iterate_append, List.nil_append]
      exact (Function.iterate_succ_apply' expandSplits k [p]).symm

/-- The do-while loop is exactly the iterated loop body, run until the queue
reaches the requested length. -/
theorem splitLoop_eq_iterate : ∀ (fuel n : Nat) (s : List (Nat × Nat)),
    0 < s.length → s.length < n → n ≤ s.length + fuel →
    splitLoop fuel n s = splitStep^[n - s.length] s
  | 0, n, s, _, h2, h3 => by omega
  | fuel + 1, n, s, h1, h2, h3 => by
      have hne : s ≠ [] := by
        cases s
        · simp at h1
        · simp
      have hlen : (splitStep s).length = s.length + 1 := splitStep_length hne
      by_cases hstop : (splitStep s).length = n
      · have : n - s.length = 1 := by omega
        rw [this]
        simp only [splitLoop, hstop, if_pos]
        rfl
      · have hrec := splitLoop_eq_iterate fuel n (splitStep s)
          (by omega) (by omega) (by omega)
        have hcount : n - s.length = (n - (splitStep s).length) + 1 := by omega
        simp only [splitLoop, hstop, if_false]
        rw [hrec, hcount, Function.iterate_succ_apply]

end Manager

namespace Manager

theorem exists_testBit_of_ne_zero {y : Nat} (hy : y ≠ 0) : ∃ i, y.testBit i = true := by
  by_contra h
  push_neg at h
  apply hy
  apply Nat.eq_of_testBit_eq
  intro i
  rw [Nat.zero_testBit]
  exact Bool.eq_false_iff.mpr (h i)

/-- The bit trick of nextPowerOfTwo: a positive x with x AND (x-1) = 0 is a
power of two. -/
theorem pow2_of_and_pred (x : Nat) (hx : 0 < x) (h : x &&& (x - 1) = 0) :
    ∃ k, x = 2 ^ k := by
  induction x using Nat.strong_induction_on with
  | _ x ih =>
    have hbit : ∀ i, (x.testBit i && (x - 1).testBit i) = false := by
      intro i
      have h0 : (x &&& (x - 1)).testBit i = Nat.testBit 0 i := by rw [h]
      rwa [Nat.testBit_and, Nat.zero_testBit] at h0
    rcases Nat.even_or_odd x with he | ho
    · obtain ⟨y, hy⟩ := he
      have hy2 : x = 2 * y := by omega
      have hypos : 0 < y := by omega
      have hand : y &&& (y - 1) = 0 := by
        apply Nat.eq_of_testBit_eq
        intro i
        rw [Nat.testBit_and, Nat.zero_testBit]
        have hb := hbit (i + 1)
        rw [Nat.testBit_succ, Nat.testBit_succ] at hb
        have hd1 : x / 2 = y := by omega
        have hd2 : (x - 1) / 2 = y - 1 := by omega
        rw [hd1, hd2] at hb
        exact hb
      obtain ⟨k, hk⟩ := ih y (by omega) hypos hand
      exact ⟨k + 1, by rw [hy2, hk, pow_succ]; ring⟩
    · obtain ⟨y, hy⟩ := ho
      by_cases hy0 : y = 0
      · exact ⟨0, by omega⟩
      · exfalso
        obtain ⟨i, hi⟩ := exists_testBit_of_ne_zero hy0
        have hb := hbit (i + 1)
        rw [Nat.testBit_succ, Nat.testBit_succ] at hb
        have hd1 : x / 2 = y := by omega
        have hd2 : (x - 1) / 2 = y := by omega
        rw [hd1, hd2, hi] at hb
        simp at hb

/-- Converse of the bit trick: a power of two satisfies x AND (x-1) = 0. -/
theorem pow2_and_pred_eq_zero (k : Nat) : 2 ^ k &&& (2 ^ k - 1) = 0 := by
  apply Nat.eq_of_testBit_eq
  intro i
  rw [Nat.testBit_and, Nat.zero_testBit, Nat.testBit_two_pow, Nat.testBit_two_pow_sub_one]
  by_cases h : k = i <;> simp [h]

/-- Rounding a value at most 2^63 cannot exceed 2^63. -/
theorem float64round_le_pow63 {x : Nat} (h : x ≤ 2 ^ 63) : float64round x ≤ 2 ^ 63 := by
  by_cases h53 : x < 2 ^ 53
  · unfold float64round
    rw [if_pos h53]
    exact h
  · have hw : x < 2 ^ 64 := by
      have h2 : (2:Nat) ^ 63 < 2 ^ 64 := by norm_num
      omega
    obtain ⟨hB1, hB2, hb1, hb2⟩ := bits_range h53 hw
    have hdm : x / 2 ^ (bits x - 53) * 2 ^ (bits x - 53) + x % 2 ^ (bits x - 53) = x :=
      Nat.div_add_mod' x _
    have hqle : x / 2 ^ (bits x - 53) ≤ 2 ^ (63 - (bits x - 53)) := by
      have h1 : x / 2 ^ (bits x - 53) ≤ 2 ^ 63 / 2 ^ (bits x - 53) :=
        Nat.div_le_div_right h
      rwa [Nat.pow_div (by omega) (by norm_num)] at h1
    have hpe : 2 ^ (63 - (bits x - 53)) * 2 ^ (bits x - 53) = 2 ^ 63 := by
      rw [← pow_add]; congr 1; omega
    have hE2 : (2:Nat) ≤ 2 ^ (bits x - 53) := by
      calc (2:Nat) = 2 ^ 1 := (pow_one 2).symm
      _ ≤ 2 ^ (bits x - 53) := Nat.pow_le_pow_right (by norm_num) (by omega)
    rw [float64round_def x h53]
    split
    next hcnd =>
      rcases Nat.lt_or_ge (x / 2 ^ (bits x - 53)) (2 ^ (63 - (bits x - 53))) with hlt | hge
      · calc (x / 2 ^ (bits x - 53) + 1) * 2 ^ (bits x - 53)
            ≤ 2 ^ (63 - (bits x - 53)) * 2 ^ (bits x - 53) :=
              Nat.mul_le_mul_right _ (by omega)
        _ = 2 ^ 63 := hpe
      · exfalso
        have hqe : x / 2 ^ (bits x - 53) = 2 ^ (63 - (bits x - 53)) := le_antisymm hqle hge
        have hx63 : x / 2 ^ (bits x - 53) * 2 ^ (bits x - 53) = 2 ^ 63 := by
          rw [hqe]; exact hpe
        have hr0 : x % 2 ^ (bits x - 53) = 0 := by omega
        rw [hr0] at hcnd
        rcases hcnd with hcnd | ⟨hcnd, _⟩ <;> omega
    next =>
      have := Nat.mul_le_mul_right (2 ^ (bits x - 53)) hqle
      omega

/-- nextPowerOfTwo of a feasible slice count is always a power of two with
exponent between 1 and 63 — whichever power the float computation lands on. -/
theorem nextPowerOfTwo_is_pow (x : Nat) (hx : 2 ≤ x) (hx63 : x ≤ 2 ^ 63) :
    ∃ k, 1 ≤ k ∧ k ≤ 63 ∧ nextPowerOfTwo x = 2 ^ k := by
  unfold nextPowerOfTwo
  by_cases h : x &&& (x - 1) = 0
  · obtain ⟨k, hk⟩ := pow2_of_and_pred x (by omega) h
    refine ⟨k, ?_, ?_, by rw [if_pos h, hk]⟩
    · by_contra hk0
      have hz : k = 0 := by omega
      rw [hz, pow_zero] at hk
      omega
    · have h1 : (2:Nat) ^ k ≤ 2 ^ 63 := by omega
      exact (Nat.pow_le_pow_iff_right (by norm_num)).mp h1
  · have hw : x < 2 ^ 64 := by
      have h2 : (2:Nat) ^ 63 < 2 ^ 64 := by norm_num
      omega
    have hf2 : 2 ≤ float64round x := by
      have := float64round_ge (k := 1) (by simpa using hx) hw
      simpa using this
    have hf63 : float64round x ≤ 2 ^ 63 := float64round_le_pow63 hx63
    have hfw : float64round x < 2 ^ 64 := by
      have h2 : (2:Nat) ^ 63 < 2 ^ 64 := by norm_num
      omega
    obtain ⟨hb1, hb2⟩ := bits_spec (n := float64round x) (by omega) hfw
    have hB2 : 2 ≤ bits (float64round x) := by
      by_contra hB
      have h1 : (2:Nat) ^ bits (float64round x) ≤ 2 ^ 1 :=
        Nat.pow_le_pow_right (by norm_num) (by omega)
      omega
    rw [if_neg h]
    unfold mathCeilLog2
    by_cases hpow : 2 ^ (bits (float64round x) - 1) = float64round x
    · refine ⟨bits (float64round x) - 1, by omega, ?_, by rw [if_pos hpow]⟩
      have h1 : (2:Nat) ^ (bits (float64round x) - 1) ≤ 2 ^ 63 := by omega
      exact (Nat.pow_le_pow_iff_right (by norm_num)).mp h1
    · refine ⟨bits (float64round x), by omega, ?_, by rw [if_neg hpow]⟩
      have h1 : (2:Nat) ^ (bits (float64round x) - 1) < 2 ^ 63 := by
        have := lt_of_le_of_ne hb1 hpow
        omega
      have h2 := (Nat.pow_lt_pow_iff_right (a := 2) (by norm_num)).mp h1
      omega

/-- On candidate counts up to 2^32 the float computation is exact: there
nextPowerOfTwo is the smallest power of two at least the input, with exponent
between 1 and 63. -/
theorem nextPowerOfTwo_small_spec (x : Nat) (hx : 2 ≤ x) (hx32 : x ≤ 2 ^ 32) :
    ∃ k, 1 ≤ k ∧ k ≤ 63 ∧ nextPowerOfTwo x = 2 ^ k ∧ x ≤ 2 ^ k ∧
      ∀ j, x ≤ 2 ^ j → 2 ^ k ≤ 2 ^ j := by
  unfold nextPowerOfTwo
  by_cases h : x &&& (x - 1) = 0
  · obtain ⟨k, hk⟩ := pow2_of_and_pred x (by omega) h
    refine ⟨k, ?_, ?_, by rw [if_pos h, hk], by omega, fun j hj => by omega⟩
    · by_contra hk0
      have hz : k = 0 := by omega
      rw [hz, pow_zero] at hk
      omega
    · have h1 : (2:Nat) ^ k ≤ 2 ^ 32 := by omega
      have h2 := (Nat.pow_le_pow_iff_right (a := 2) (by norm_num)).mp h1
      omega
  · have h53 : x < 2 ^ 53 := by
      have h2 : (2:Nat) ^ 32 < 2 ^ 53 := by norm_num
      omega
    have hfx : float64round x = x := by
      unfold float64round
      rw [if_pos h53]
    have hw : x < 2 ^ 64 := by
      have h2 : (2:Nat) ^ 53 < 2 ^ 64 := by norm_num
      omega
    obtain ⟨hb1, hb2⟩ := bits_spec (n := x) (by omega) hw
    have hpow : ¬ 2 ^ (bits x - 1) = x := by
      intro hp
      exact h (hp ▸ pow2_and_pred_eq_zero (bits x - 1))
    have hlt : 2 ^ (bits x - 1) < x := lt_of_le_of_ne hb1 hpow
    have hB33 : bits x ≤ 33 := by
      have h1 : (2:Nat) ^ (bits x - 1) < 2 ^ 32 := by
        have h2 : (2:Nat) ^ 32 ≤ 2 ^ 32 := le_rfl
        omega
      have h2 := (Nat.pow_lt_pow_iff_right (a := 2) (by norm_num)).mp h1
      omega
    have hB1 : 1 ≤ bits x := by
      by_contra hB
      have hz : bits x = 0 := by omega
      rw [hz, pow_zero] at hb2
      omega
    rw [if_neg h, hfx]
    unfold mathCeilLog2
    rw [if_neg hpow]
    refine ⟨bits x, by omega, by omega, rfl, by omega, ?_⟩
    intro j hj
    apply Nat.pow_le_pow_right (by norm_num)
    by_contra hjb
    push_neg at hjb
    have h1 : (2:Nat) ^ j ≤ 2 ^ (bits x - 1) :=
      Nat.pow_le_pow_right (by norm_num) (by omega)
    omega

end Manager

namespace Manager

/-- Each breadth-first level of the bisection tiles the whole key range with
intervals of width at least 2^(63-k). -/
theorem expandSplits_iter_tiling : ∀ k ≤ 63,
    IsTiling 0 maxSliceKey (expandSplits^[k] [(minSliceKey, maxSliceKey)]) ∧
    MinWidth (2 ^ (63 - k)) (expandSplits^[k] [(minSliceKey, maxSliceKey)])
  | 0, _ => by
      constructor
      · exact ⟨rfl, by norm_num [maxSliceKey, minSliceKey], rfl⟩
      · intro p hp
        rcases List.mem_cons.mp hp with rfl | hp
        · norm_num [maxSliceKey, minSliceKey]
        · exact absurd hp (List.not_mem_nil p)
  | k + 1, hk => by
      obtain ⟨ht, hm⟩ := expandSplits_iter_tiling k (by omega)
      have hw : (2:Nat) ^ (63 - k) = 2 ^ ((63 - (k + 1)) + 1) := by
        congr 1
        omega
      rw [hw] at hm
      have hmax : maxSliceKey < 2 ^ 64 := by norm_num [maxSliceKey]
      obtain ⟨ht', hm'⟩ := expandSplits_tile ht hmax hm
      rw [Function.iterate_succ_apply']
      exact ⟨ht', hm'⟩

/-- A tiling is sorted by start key, so the final sort of routingAlgo leaves
it unchanged. -/
theorem IsTiling.sorted_starts {lo hi : Nat} :
    ∀ {l : List (Nat × Nat)}, IsTiling lo hi l →
      l.Sorted (fun p q : Nat × Nat => p.1 ≤ q.1)
  | [], _ => List.sorted_nil
  | p :: rest, h => by
      rw [List.sorted_cons]
      refine ⟨fun q hq => ?_, h.2.2.sorted_starts⟩
      obtain ⟨h1, _, _⟩ := h.2.2.bounds q hq
      exact le_trans (le_of_lt h.2.1) h1

theorem sortSplits_of_tiling {lo hi : Nat} {l : List (Nat × Nat)} (h : IsTiling lo hi l) :
    sortSplits l = l :=
  h.sorted_starts.insertionSort_eq

theorem IsTiling.starts_chain {lo hi : Nat} :
    ∀ {l : List (Nat × Nat)}, IsTiling lo hi l →
      (l.map Prod.fst).Chain' (· < ·)
  | [], _ => List.chain'_nil
  | p :: rest, h => by
      have htail := h.2.2.starts_chain
      cases rest with
      | nil => simp
      | cons q rest' =>
          simp only [List.map_cons] at htail ⊢
          rw [List.chain'_cons]
          refine ⟨?_, htail⟩
          have hpq : p.2 = q.1 := h.2.2.1
          rw [← hpq]
          exact h.2.1

theorem IsTiling.starts_head {lo hi : Nat} {l : List (Nat × Nat)}
    (h : IsTiling lo hi l) (hne : l ≠ []) : (l.map Prod.fst).head? = some lo := by
  cases l with
  | nil => exact absurd rfl hne
  | cons p rest =>
      rw [List.map_cons, List.head?_cons, h.1]

theorem assignSlices_length (c : List String) :
    ∀ (r : Nat) (sp : List (Nat × Nat)), (assignSlices c r sp).length = sp.length
  | _, [] => rfl
  | r, s :: rest => by
      rw [assignSlices, List.length_cons, List.length_cons, assignSlices_length c _ rest]

theorem assignSlices_starts (c : List String) :
    ∀ (r : Nat) (sp : List (Nat × Nat)),
      (assignSlices c r sp).map AssignmentSlice.start = sp.map Prod.fst
  | _, [] => rfl
  | r, s :: rest => by
      rw [assignSlices, List.map_cons, List.map_cons, assignSlices_starts c _ rest]

end Manager

namespace Manager

/-- The splits computed by routingAlgo for a feasible candidate count tile the
whole key range, and there are exactly nextPowerOfTwo n of them. -/
theorem splits_tiling {n : Nat} (h2 : 2 ≤ n) (h63 : n ≤ 2 ^ 63) :
    ∃ k, 1 ≤ k ∧ k ≤ 63 ∧ nextPowerOfTwo n = 2 ^ k ∧
    IsTiling 0 maxSliceKey
      (splitLoop (nextPowerOfTwo n) (nextPowerOfTwo n) [(minSliceKey, maxSliceKey)]) ∧
    (splitLoop (nextPowerOfTwo n) (nextPowerOfTwo n) [(minSliceKey, maxSliceKey)]).length =
      nextPowerOfTwo n := by
  obtain ⟨k, hk1, hk63, hnp⟩ := nextPowerOfTwo_is_pow n h2 h63
  have hp1 : (2:Nat) ≤ 2 ^ k := by
    calc (2:Nat) = 2 ^ 1 := (pow_one 2).symm
    _ ≤ 2 ^ k := Nat.pow_le_pow_right (by norm_num) hk1
  have hloop : splitLoop (2 ^ k) (2 ^ k) [(minSliceKey, maxSliceKey)] =
      splitStep^[2 ^ k - 1] [(minSliceKey, maxSliceKey)] := by
    have h := splitLoop_eq_iterate (2 ^ k) (2 ^ k) [(minSliceKey, maxSliceKey)]
      (by simp) (by simp only [List.length_singleton]; omega)
      (by simp only [List.length_singleton]; omega)
    simpa using h
  obtain ⟨ht, _⟩ := expandSplits_iter_tiling k hk63
  refine ⟨k, hk1, hk63, hnp, ?_, ?_⟩
  · rw [hnp, hloop, splitStep_iterate_levels]
    exact ht
  · rw [hnp, hloop, splitStep_iterate_levels, expandSplits_iterate_length]

/-- The version field of routingAlgo's result: always the uint64 increment of
the input version, in every branch. -/
theorem routingAlgo_version (a : Assignment) (cs : List String) :
    (routingAlgo a cs).version = (a.version + 1) % 2 ^ 64 := by
  unfold routingAlgo
  by_cases h0 : (sortStrings cs).length = 0
  · simp [h0]
  · by_cases h1 : (sortStrings cs).length = 1
    · simp [h0, h1]
    · simp [h0, h1]

theorem routingAlgo_slices_zero (a : Assignment) (cs : List String)
    (h0 : (sortStrings cs).length = 0) : (routingAlgo a cs).slices = [] := by
  unfold routingAlgo
  simp [h0]

theorem routingAlgo_slices_one (a : Assignment) (cs : List String)
    (h1 : (sortStrings cs).length = 1) :
    (routingAlgo a cs).slices = [{ start := minSliceKey, replicas := sortStrings cs }] := by
  unfold routingAlgo
  have h0 : ¬ (sortStrings cs).length = 0 := by omega
  simp [h0, h1]

theorem routingAlgo_slices_many (a : Assignment) (cs : List String)
    (h2 : 2 ≤ (sortStrings cs).length) :
    (routingAlgo a cs).slices =
      assignSlices (sortStrings cs) 0 (sortSplits
        (splitLoop (nextPowerOfTwo (sortStrings cs).length)
          (nextPowerOfTwo (sortStrings cs).length) [(minSliceKey, maxSliceKey)])) := by
  unfold routingAlgo
  have h0 : ¬ (sortStrings cs).length = 0 := by omega
  have h1 : ¬ (sortStrings cs).length = 1 := by omega
  simp [h0, h1]

end Manager

namespace Manager

/-- C2: for every non-empty candidate replica list that a Go process can hold,
the slice list produced by routingAlgo (Recompute) is non-empty, its start keys
are strictly increasing beginning at 0, each start key is a valid uint64, and
the start keys are exactly the left endpoints of a tiling of the key range
[0, 2^64): consecutive implied slice ranges are contiguous with no gaps and no
overlaps, together covering the whole uint64 key space. -/
theorem routingAlgo_slices_cover (a : Assignment) (cs : List String)
    (hne : cs ≠ []) (hlen : cs.length < 2 ^ 63) :
    ∃ ts : List (Nat × Nat), IsTiling 0 maxSliceKey ts ∧
      (routingAlgo a cs).slices.map AssignmentSlice.start = ts.map Prod.fst ∧
      (routingAlgo a cs).slices ≠ [] ∧
      ((routingAlgo a cs).slices.map AssignmentSlice.start).head? = some 0 ∧
      ((routingAlgo a cs).slices.map AssignmentSlice.start).Chain' (· < ·) ∧
      ∀ s ∈ (routingAlgo a cs).slices, s.start < 2 ^ 64 := by
  have hslen : (sortStrings cs).length = cs.length := sortStrings_length cs
  have hpos : 0 < cs.length := List.length_pos.mpr hne
  by_cases h1 : cs.length = 1
  · have hsl := routingAlgo_slices_one a cs (by omega)
    have htile : IsTiling 0 maxSliceKey [(minSliceKey, maxSliceKey)] :=
      ⟨rfl, by norm_num [minSliceKey, maxSliceKey], rfl⟩
    refine ⟨[(minSliceKey, maxSliceKey)], htile, ?_, ?_, ?_, ?_, ?_⟩
    · rw [hsl]; simp [minSliceKey]
    · rw [hsl]; simp
    · rw [hsl]; simp [minSliceKey]
    · rw [hsl]; simp
    · rw [hsl]
      intro s hs
      rcases List.mem_cons.mp hs with rfl | hs
      · norm_num [minSliceKey]
      · exact absurd hs (List.not_mem_nil s)
  · have h2 : 2 ≤ (sortStrings cs).length := by omega
    obtain ⟨k, hk1, hk63, hnp, ht, hlenk⟩ :=
      splits_tiling (n := (sortStrings cs).length) h2 (by omega)
    have hsl := routingAlgo_slices_many a cs h2
    rw [sortSplits_of_tiling ht] at hsl
    have hmap : (routingAlgo a cs).slices.map AssignmentSlice.start =
        (splitLoop (nextPowerOfTwo (sortStrings cs).length)
          (nextPowerOfTwo (sortStrings cs).length)
          [(minSliceKey, maxSliceKey)]).map Prod.fst := by
      rw [hsl, assignSlices_starts]
    have hne' : splitLoop (nextPowerOfTwo (sortStrings cs).length)
        (nextPowerOfTwo (sortStrings cs).length) [(minSliceKey, maxSliceKey)] ≠ [] := by
      apply List.ne_nil_of_length_pos
      rw [hlenk, hnp]
      positivity
    refine ⟨_, ht, hmap, ?_, ?_, ?_, ?_⟩
    · apply List.ne_nil_of_length_pos
      rw [hsl, assignSlices_length, hlenk, hnp]
      positivity
    · rw [hmap]
      exact ht.starts_head hne'
    · rw [hmap]
      exact ht.starts_chain
    · intro s hs
      have hsin : s.start ∈ (routingAlgo a cs).slices.map AssignmentSlice.start :=
        List.mem_map.mpr ⟨s, hs, rfl⟩
      rw [hmap] at hsin
      obtain ⟨p, hp, hps⟩ := List.mem_map.mp hsin
      obtain ⟨_, hlt, hle⟩ := ht.bounds p hp
      have : maxSliceKey < 2 ^ 64 := by norm_num [maxSliceKey]
      omega

/-- Witness for C2 at the concrete candidate list ["b", "a"]. -/
theorem routingAlgo_slices_cover_witness :
    ((routingAlgo {} ["b", "a"]).slices.map AssignmentSlice.start).head? = some 0 := by
  obtain ⟨ts, h1, h2, h3, h4, h5, h6⟩ :=
    routingAlgo_slices_cover {} ["b", "a"] (by simp) (by norm_num)
  exact h4

end Manager

namespace Manager

/-- Slices depend only on the sorted candidate list, not on the incoming
assignment. -/
theorem routingAlgo_slices_congr (a b : Assignment) (cs ds : List String)
    (h : sortStrings cs = sortStrings ds) :
    (routingAlgo a cs).slices = (routingAlgo b ds).slices := by
  by_cases h0 : (sortStrings ds).length = 0
  · rw [routingAlgo_slices_zero a cs (by rw [h]; exact h0),
      routingAlgo_slices_zero b ds h0]
  · by_cases h1 : (sortStrings ds).length = 1
    · rw [routingAlgo_slices_one a cs (by rw [h]; exact h1),
        routingAlgo_slices_one b ds h1, h]
    · have h2 : 2 ≤ (sortStrings ds).length := by omega
      rw [routingAlgo_slices_many a cs (by rw [h]; omega),
        routingAlgo_slices_many b ds h2, h]

/-- C4: routingAlgo (Recompute) is deterministic and content-idempotent —
called with the same candidate multiset in any order (it sorts its input), and
with any incoming assignments, the computed slices and their replica
assignments are structurally identical, so repeated invocations differ only in
the version field; and every invocation increments the version by exactly one
(uint64 increment), including when the partition is structurally unchanged and
in the zero-candidate case. -/
theorem routingAlgo_deterministic (a b : Assignment) (cs ds : List String)
    (hp : List.Perm cs ds) (hv : a.version + 1 < 2 ^ 64) :
    (routingAlgo a cs).slices = (routingAlgo b ds).slices ∧
    (routingAlgo a cs).version = a.version + 1 ∧
    (routingAlgo a []).version = a.version + 1 := by
  refine ⟨routingAlgo_slices_congr a b cs ds (sortStrings_eq_of_perm hp), ?_, ?_⟩
  · rw [routingAlgo_version, Nat.mod_eq_of_lt hv]
  · rw [routingAlgo_version, Nat.mod_eq_of_lt hv]

/-- Witness for C4 at the permuted concrete candidate lists. -/
theorem routingAlgo_deterministic_witness :
    (routingAlgo {} ["b", "a"]).slices = (routingAlgo {} ["a", "b"]).slices :=
  (routingAlgo_deterministic {} {} ["b", "a"] ["a", "b"]
    (List.Perm.swap "a" "b" []) (by norm_num)).1

/-- C5 amended: the number of slices produced by routingAlgo (Recompute) is a
fixed function of the candidate count N: N = 0 yields no slices (with the
version still incremented), N = 1 yields exactly one slice starting at key 0
owning the whole key space, and 2 <= N yields exactly nextPowerOfTwo N slices.
For counts up to 2^32 — where the float computation inside nextPowerOfTwo is
provably exact — that is the smallest power of two greater than or equal to N;
beyond that the float computation can undershoot N (see
routingAlgo_slice_count_undershoot), so the original unrestricted claim fails. -/
theorem routingAlgo_slice_count (a : Assignment) (cs : List String)
    (hlen : cs.length ≤ 2 ^ 32) :
    (cs.length = 0 → (routingAlgo a cs).slices = [] ∧
      (routingAlgo a cs).version = (a.version + 1) % 2 ^ 64) ∧
    (cs.length = 1 →
      (routingAlgo a cs).slices = [{ start := 0, replicas := sortStrings cs }]) ∧
    (2 ≤ cs.length →
      (routingAlgo a cs).slices.length = nextPowerOfTwo cs.length ∧
      cs.length ≤ nextPowerOfTwo cs.length ∧
      (∃ k, nextPowerOfTwo cs.length = 2 ^ k) ∧
      ∀ j, cs.length ≤ 2 ^ j → nextPowerOfTwo cs.length ≤ 2 ^ j) := by
  have hslen : (sortStrings cs).length = cs.length := sortStrings_length cs
  refine ⟨fun h0 => ?_, fun h1 => ?_, fun h2 => ?_⟩
  · exact ⟨routingAlgo_slices_zero a cs (by omega), routingAlgo_version a cs⟩
  · exact routingAlgo_slices_one a cs (by omega)
  · have h32 : (2:Nat) ^ 32 ≤ 2 ^ 63 := by norm_num
    obtain ⟨k, hk1, hk63, hnp, ht, hlenk⟩ :=
      splits_tiling (n := (sortStrings cs).length) (by omega) (by omega)
    obtain ⟨k', _, _, hnp', hge', hmin'⟩ :=
      nextPowerOfTwo_small_spec cs.length h2 (by omega)
    have hsl := routingAlgo_slices_many a cs (by omega)
    rw [sortSplits_of_tiling ht] at hsl
    refine ⟨?_, by rw [hnp']; exact hge', ⟨k', hnp'⟩, by rw [hnp']; exact hmin'⟩
    rw [hsl, assignSlices_length, hlenk, hslen]

end Manager

namespace Manager

/-- Witness for C5 at the three-candidate list, where nextPowerOfTwo 3 = 4. -/
theorem routingAlgo_slice_count_witness :
    (routingAlgo {} ["a", "b", "c"]).slices.length = nextPowerOfTwo 3 :=
  ((routingAlgo_slice_count {} ["a", "b", "c"] (by norm_num)).2.2 (by norm_num)).1

end Manager

namespace Manager

/-- The source value of nextPowerOfTwo at 2^53 + 1: the float64 conversion
rounds ties-to-even down to the exact power 2^53, so the result undershoots
the input. -/
theorem nextPowerOfTwo_undershoots : nextPowerOfTwo (2 ^ 53 + 1) = 2 ^ 53 := by
  decide

/-- The slice count of routingAlgo at any candidate list of length 2^53 + 1:
exactly 2^53 slices, fewer than the candidates. -/
theorem routingAlgo_count_at_pow53 (cs : List String) (hlen : cs.length = 2 ^ 53 + 1) :
    (routingAlgo {} cs).slices.length = 2 ^ 53 := by
  have hslen : (sortStrings cs).length = cs.length := sortStrings_length cs
  have h2 : 2 ≤ (sortStrings cs).length := by
    rw [hslen, hlen]
    norm_num
  obtain ⟨k, hk1, hk63, hnpk, ht, hlenk⟩ :=
    splits_tiling (n := (sortStrings cs).length) h2 (by rw [hslen, hlen]; norm_num)
  have hsl := routingAlgo_slices_many {} cs h2
  rw [sortSplits_of_tiling ht] at hsl
  rw [hsl, assignSlices_length, hlenk, hslen, hlen, nextPowerOfTwo_undershoots]

/-- C5 counterexample: at the candidate count 2^53 + 1 the source's
nextPowerOfTwo — int(math.Pow(2, math.Ceil(math.Log2(float64(x))))) — returns
2^53: float64(2^53 + 1) rounds ties-to-even to the exact power 2^53, whose
Log2 is exactly 53.  routingAlgo therefore produces 2^53 slices, strictly
fewer than the candidate count, refuting the claim that the slice count is the
smallest power of two greater than or equal to N. -/
theorem routingAlgo_slice_count_undershoot :
    (routingAlgo {} (List.replicate (2 ^ 53 + 1) "r")).slices.length = 2 ^ 53 ∧
    (routingAlgo {} (List.replicate (2 ^ 53 + 1) "r")).slices.length <
      (List.replicate (2 ^ 53 + 1) "r").length := by
  have h := routingAlgo_count_at_pow53 (List.replicate (2 ^ 53 + 1) "r")
    (List.length_replicate _ _)
  have h2 : (List.replicate (2 ^ 53 + 1) "r").length = 2 ^ 53 + 1 :=
    List.length_replicate _ _
  exact ⟨h, by omega⟩

end Manager
